import Mathlib

/-!
Detective Quest: clue tree and clue-to-suspect table.

A shallow embedding of `algoritmos_avancados.c`: the case-insensitive clue
comparison, the clue binary search tree (insert, delete, search, in-order
listing) and the separately chained hash table that links clues to suspects
(put, get, delete, enumeration).

A C string is modelled by the list of its bytes before the terminating NUL,
each byte taken as its `unsigned char` value. Reading the byte under the
pointer gives the head of the list, and the terminator `0` once the list is
exhausted. A null tree pointer is the constructor `null`; a linked chain of
hash entries is the list of its entries from head to tail. Allocation is taken to
succeed, so no pointer returned by `calloc` or `malloc` is null.
-/

namespace DetectiveQuest

/-- A NUL-terminated byte string: the bytes before the terminator. -/
abbrev CStr := List Nat

/-- The byte `*s` under a string pointer: the terminator once the bytes are used up. -/
def cur : CStr → Nat
  | [] => 0
  | c :: _ => c

/-- The pointer `s + 1`. -/
def next : CStr → CStr
  | [] => []
  | _ :: s => s

/-- The C library `tolower` in the default "C" locale: only `A`..`Z` change. -/
def tolower (c : Nat) : Nat :=
  if 65 ≤ c ∧ c ≤ 90 then c + 32 else c

/-- The function `clue_cmp`: walk both strings, compare the lowercased bytes, stop at the
first difference or at the terminator. -/
def clue_cmp : CStr → CStr → Int
  | [], b =>
    let ca := tolower 0
    let cb := tolower (cur b)
    if ca ≠ cb then (ca : Int) - (cb : Int) else 0
  | x :: a, b =>
    let ca := tolower x
    let cb := tolower (cur b)
    if ca ≠ cb then (ca : Int) - (cb : Int)
    else if ca = 0 then 0
    else clue_cmp a (next b)

/-- A node of the clue tree (`ClueNode`); `null` is the null pointer. -/
inductive ClueNode where
  | null : ClueNode
  | node (clue : CStr) (left right : ClueNode) : ClueNode
  deriving DecidableEq, Repr

open ClueNode

/-- The function `clue_create`: a fresh node without children. -/
def clue_create (clue : CStr) : ClueNode := node clue null null

/-- The function `clue_insert`. -/
def clue_insert : ClueNode → CStr → ClueNode
  | null, clue => clue_create clue
  | node k l r, clue =>
    let c := clue_cmp clue k
    if c < 0 then node k (clue_insert l clue) r
    else if c > 0 then node k l (clue_insert r clue)
    else node k l r

/-- The function `clue_min`: follow left links while there is one; the result is the
pointer to the node reached (the subtree rooted there). -/
def clue_min : ClueNode → ClueNode
  | null => null
  | node k null r => node k null r
  | node _ (node lk ll lr) _ => clue_min (node lk ll lr)

/-- The text `n->clue` of a node; the empty text stands in at the null pointer, which
`clue_delete` never dereferences. -/
def clueOf : ClueNode → CStr
  | null => []
  | node k _ _ => k

/-- The function `clue_delete`. -/
def clue_delete : ClueNode → CStr → ClueNode
  | null, _ => null
  | node k l r, clue =>
    let c := clue_cmp clue k
    if c < 0 then node k (clue_delete l clue) r
    else if c > 0 then node k l (clue_delete r clue)
    else
      match l, r with
      | null, r => r
      | node lk ll lr, null => node lk ll lr
      | node lk ll lr, node rk rl rr =>
        let m := clue_min (node rk rl rr)
        node (clueOf m) (node lk ll lr) (clue_delete (node rk rl rr) (clueOf m))

/-- The function `clue_search`: 1 when found, 0 otherwise. -/
def clue_search : ClueNode → CStr → Int
  | null, _ => 0
  | node k l r, clue =>
    let c := clue_cmp clue k
    if c = 0 then 1
    else if c < 0 then clue_search l clue
    else clue_search r clue

/-- The texts in the order `clue_print_inorder` prints them. -/
def clue_print_inorder : ClueNode → List CStr
  | null => []
  | node k l r => clue_print_inorder l ++ k :: clue_print_inorder r

/-- Number of nodes of a clue tree. -/
def nodeCount : ClueNode → Nat
  | null => 0
  | node _ l r => nodeCount l + 1 + nodeCount r

/-- The ordering invariant of the clue tree: at every node the texts of the left subtree
compare below the node's text and the texts of the right subtree above it. -/
def BST : ClueNode → Prop
  | null => True
  | node k l r =>
    (∀ x ∈ clue_print_inorder l, clue_cmp x k < 0) ∧
    (∀ x ∈ clue_print_inorder r, clue_cmp x k > 0) ∧ BST l ∧ BST r

/-- The ordering invariant can be checked by running it. -/
def decBST : (t : ClueNode) → Decidable (BST t)
  | null => isTrue trivial
  | node k l r =>
    have := decBST l
    have := decBST r
    inferInstanceAs (Decidable
      ((∀ x ∈ clue_print_inorder l, clue_cmp x k < 0) ∧
       (∀ x ∈ clue_print_inorder r, clue_cmp x k > 0) ∧ BST l ∧ BST r))

instance : DecidablePred BST := decBST

/-- Some node of the tree stores a text that `clue_cmp` reports equal to `x`. -/
def Holds (t : ClueNode) (x : CStr) : Prop :=
  ∃ y ∈ clue_print_inorder t, clue_cmp x y = 0

instance (t : ClueNode) (x : CStr) : Decidable (Holds t x) :=
  inferInstanceAs (Decidable (∃ y ∈ clue_print_inorder t, clue_cmp x y = 0))

/-- Insert the texts of a list one after another, first text first. -/
def insertAll (t : ClueNode) (xs : List CStr) : ClueNode :=
  xs.foldl clue_insert t

/-- The C library `strcasecmp` (POSIX, default locale), which the table uses to compare
keys: the difference of the lowercased bytes at the first position where they differ,
and 0 when the terminator is reached first. -/
def strcasecmp : CStr → CStr → Int
  | [], s2 => (tolower 0 : Int) - (tolower (cur s2) : Int)
  | c :: s1, s2 =>
    let result := (tolower c : Int) - (tolower (cur s2) : Int)
    if result = 0 then (if c = 0 then result else strcasecmp s1 (next s2)) else result

/-- An entry of a bucket chain (`MapKV`); the `next` link is the tail of the list. -/
structure MapKV where
  key : CStr
  value : CStr
  deriving DecidableEq, Repr

/-- The table (`HashMap`): the bucket count and the array of chain heads. -/
structure HashMap where
  buckets : Nat
  table : List (List MapKV)
  deriving DecidableEq, Repr

/-- The loop of `djb2` on `unsigned long` (64 bits): it ends at the terminator. -/
def djb2_loop : CStr → Nat → Nat
  | [], hash => hash
  | c :: str, hash =>
    if c = 0 then hash
    else djb2_loop str ((((hash <<< 5) % 2 ^ 64 + hash) % 2 ^ 64 + c) % 2 ^ 64)

/-- The function `djb2`. -/
def djb2 (str : CStr) : Nat := djb2_loop str 5381

/-- The function `hashmap_create`: every chain empty; a zero count becomes 53. -/
def hashmap_create (buckets : Nat) : HashMap :=
  let n := if buckets ≠ 0 then buckets else 53
  { buckets := n, table := List.replicate n [] }

/-- The chain `m->table[h]`. -/
def chainAt (m : HashMap) (h : Nat) : List MapKV := m.table.getD h []

/-- The scan of `hashmap_put` along a chain: the chain with the value of the first
matching entry replaced, or `none` when the end is reached without a match. -/
def put_scan : List MapKV → CStr → CStr → Option (List MapKV)
  | [], _, _ => none
  | p :: rest, key, value =>
    if strcasecmp p.key key = 0 then some ({ key := p.key, value := value } :: rest)
    else (put_scan rest key value).map (fun c => p :: c)

/-- The function `hashmap_put` (on a table and a key that are not null pointers). -/
def hashmap_put (m : HashMap) (key value : CStr) : HashMap :=
  let h := djb2 key % m.buckets
  match put_scan (chainAt m h) key value with
  | some chain => { buckets := m.buckets, table := m.table.set h chain }
  | none =>
    { buckets := m.buckets,
      table := m.table.set h ({ key := key, value := value } :: chainAt m h) }

/-- The scan of `hashmap_get` along a chain: the value of the first matching entry. -/
def get_scan : List MapKV → CStr → Option CStr
  | [], _ => none
  | p :: rest, key =>
    if strcasecmp p.key key = 0 then some p.value else get_scan rest key

/-- The function `hashmap_get`; `none` is the NULL result. -/
def hashmap_get (m : HashMap) (key : CStr) : Option CStr :=
  get_scan (chainAt m (djb2 key % m.buckets)) key

/-- The scan of `hashmap_del` along a chain: the chain with the first matching entry
unlinked, or `none` when the end is reached without a match. -/
def del_scan : List MapKV → CStr → Option (List MapKV)
  | [], _ => none
  | p :: rest, key =>
    if strcasecmp p.key key = 0 then some rest
    else (del_scan rest key).map (fun c => p :: c)

/-- The function `hashmap_del`: the table afterwards and the returned flag. -/
def hashmap_del (m : HashMap) (key : CStr) : HashMap × Int :=
  let h := djb2 key % m.buckets
  match del_scan (chainAt m h) key with
  | some chain => ({ buckets := m.buckets, table := m.table.set h chain }, 1)
  | none => (m, 0)

/-- The entries in the order `hashmap_print` lists them. -/
def hashmap_print (m : HashMap) : List MapKV :=
  (List.range m.buckets).flatMap (fun i => chainAt m i)

/-- A call that changes the table. -/
inductive TableOp where
  | put (key value : CStr) : TableOp
  | del (key : CStr) : TableOp
  deriving DecidableEq, Repr

/-- The table after one call. -/
def applyOp (m : HashMap) : TableOp → HashMap
  | TableOp.put key value => hashmap_put m key value
  | TableOp.del key => (hashmap_del m key).1

/-- The table after a sequence of calls, first call first. -/
def runOps (m : HashMap) (ops : List TableOp) : HashMap :=
  ops.foldl applyOp m

/-- Within every chain no two entries have keys that `strcasecmp` reports equal. -/
def ChainsDistinct (m : HashMap) : Prop :=
  ∀ chain ∈ m.table, chain.Pairwise (fun p q => strcasecmp q.key p.key ≠ 0)

/-- Sample texts used in the scenarios. -/
def txtKnife : CStr := [75, 110, 105, 102, 101]

/-- The text "rope". -/
def txtRope : CStr := [114, 111, 112, 101]

/-- The text "KNIFE". -/
def txtKNIFE : CStr := [75, 78, 73, 70, 69]

/-- The key "Candlestick". -/
def keyCandlestick : CStr := [67, 97, 110, 100, 108, 101, 115, 116, 105, 99, 107]

/-- The key "candlestick". -/
def keyCandlestickLower : CStr := [99, 97, 110, 100, 108, 101, 115, 116, 105, 99, 107]

/-- The key "CANDLESTICK". -/
def keyCandlestickUpper : CStr := [67, 65, 78, 68, 76, 69, 83, 84, 73, 67, 75]

/-- The value "Colonel Mustard". -/
def valMustard : CStr :=
  [67, 111, 108, 111, 110, 101, 108, 32, 77, 117, 115, 116, 97, 114, 100]

/-- The value "Professor Plum". -/
def valPlum : CStr := [80, 114, 111, 102, 101, 115, 115, 111, 114, 32, 80, 108, 117, 109]

/-- The function `strtolower_inplace`: lowercase every byte up to the terminator. -/
def strtolower_inplace : CStr → CStr
  | [] => []
  | c :: s => if c = 0 then c :: s else tolower c :: strtolower_inplace s

/-- A well-formed string: no byte before the terminator is NUL, each fits in a byte. -/
def IsCStr (s : CStr) : Prop := ∀ c ∈ s, 0 < c ∧ c < 256

instance (s : CStr) : Decidable (IsCStr s) :=
  inferInstanceAs (Decidable (∀ c ∈ s, 0 < c ∧ c < 256))

/-- The byte `s[i]` of a string: the terminator from the end on. -/
def byteAt (s : CStr) (i : Nat) : Nat := s.getD i 0

/-- The tree without its leftmost node, whose right child takes its place: what the
description of the two-children case asks of the right subtree. -/
def removeLeftmost : ClueNode → ClueNode
  | null => null
  | node _ null r => r
  | node k (node lk ll lr) r => node k (removeLeftmost (node lk ll lr)) r

/-- One step of the hash as the description words it: times 33, plus the byte,
on 64 bits. -/
def djb2_step (h byte : Nat) : Nat := (h * 33 + byte) % 2 ^ 64

/-- The hash as the description words it: a left fold from the seed 5381. -/
def djb2_fold (s : CStr) : Nat := s.foldl djb2_step 5381

/-- A table as `hashmap_create` lays it out: a positive bucket count and one chain head
per bucket. -/
def TableOk (m : HashMap) : Prop := 0 < m.buckets ∧ m.table.length = m.buckets

instance (m : HashMap) : Decidable (TableOk m) :=
  inferInstanceAs (Decidable (0 < m.buckets ∧ m.table.length = m.buckets))

/-- A room of the mansion (`RoomNode`); `null` is the null pointer. -/
inductive RoomNode where
  | null : RoomNode
  | node (id : Int) (name : CStr) (left right : RoomNode) : RoomNode
  deriving DecidableEq, Repr

/-- The function `room_create`: a room without children. -/
def room_create (id : Int) (name : CStr) : RoomNode :=
  RoomNode.node id name RoomNode.null RoomNode.null

/-- The assignments `n->left = l; n->right = r`. -/
def room_link : RoomNode → RoomNode → RoomNode → RoomNode
  | RoomNode.null, _, _ => RoomNode.null
  | RoomNode.node id name _ _, l, r => RoomNode.node id name l r

/-- The field `r->id`; 0 stands in at the null pointer. -/
def roomId : RoomNode → Int
  | RoomNode.null => 0
  | RoomNode.node id _ _ _ => id

/-- The field `r->left`; the null pointer stands in at the null pointer. -/
def roomLeft : RoomNode → RoomNode
  | RoomNode.null => RoomNode.null
  | RoomNode.node _ _ l _ => l

/-- The field `r->right`; the null pointer stands in at the null pointer. -/
def roomRight : RoomNode → RoomNode
  | RoomNode.null => RoomNode.null
  | RoomNode.node _ _ _ r => r

/-- The room ids in the order `room_print_inorder` prints the rooms. -/
def room_print_inorder : RoomNode → List Int
  | RoomNode.null => []
  | RoomNode.node id _ l r => room_print_inorder l ++ id :: room_print_inorder r

/-- The name "Hall". -/
def nameHall : CStr := [72, 97, 108, 108]

/-- The name "Sala de Estar". -/
def nameSala : CStr := [83, 97, 108, 97, 32, 100, 101, 32, 69, 115, 116, 97, 114]

/-- The name "Biblioteca". -/
def nameBiblioteca : CStr := [66, 105, 98, 108, 105, 111, 116, 101, 99, 97]

/-- The name "Cozinha". -/
def nameCozinha : CStr := [67, 111, 122, 105, 110, 104, 97]

/-- The name "Sala de Jantar". -/
def nameJantar : CStr := [83, 97, 108, 97, 32, 100, 101, 32, 74, 97, 110, 116, 97, 114]

/-- The name "Escritório" in UTF-8. -/
def nameEscritorio : CStr := [69, 115, 99, 114, 105, 116, 195, 179, 114, 105, 111]

/-- The name "Conservatório" in UTF-8. -/
def nameConservatorio : CStr :=
  [67, 111, 110, 115, 101, 114, 118, 97, 116, 195, 179, 114, 105, 111]

/-- The function `build_sample_mansion`. The source links the rooms through pointers,
root first; on values the children are linked before their parent. -/
def build_sample_mansion : RoomNode :=
  let n1 := room_create 1 nameHall
  let n2 := room_create 2 nameSala
  let n3 := room_create 3 nameBiblioteca
  let n4 := room_create 4 nameCozinha
  let n5 := room_create 5 nameJantar
  let n6 := room_create 6 nameEscritorio
  let n7 := room_create 7 nameConservatorio
  room_link n1 (room_link n2 n4 n5) (room_link n3 n6 n7)

/-- The game state (`Game`); the current room is the room the pointer leads to. -/
structure Game where
  mansion_root : RoomNode
  current_room : RoomNode
  clues_bst : ClueNode
  clue2sus : HashMap
  deriving DecidableEq, Repr

/-- The function `game_create`. -/
def game_create : Game :=
  { mansion_root := build_sample_mansion
    current_room := build_sample_mansion
    clues_bst := null
    clue2sus := hashmap_create 101 }

/-- The function `action_show_map` once the command line `op` is read: the state
afterwards and what is printed after the prompt. What it prints before reading does
not depend on the command and is left out. -/
def action_show_map (g : Game) (op : CStr) : Game × List String :=
  if cur op = 76 ∨ cur op = 108 then
    if roomLeft g.current_room ≠ RoomNode.null then
      ({ mansion_root := g.mansion_root, current_room := roomLeft g.current_room,
         clues_bst := g.clues_bst, clue2sus := g.clue2sus }, [])
    else (g, ["Não há caminho à esquerda.\n"])
  else if cur op = 82 ∨ cur op = 114 then
    if roomRight g.current_room ≠ RoomNode.null then
      ({ mansion_root := g.mansion_root, current_room := roomRight g.current_room,
         clues_bst := g.clues_bst, clue2sus := g.clue2sus }, [])
    else (g, ["Não há caminho à direita.\n"])
  else (g, [])

/-- The branch `op[0]=='2'` of `action_clues` once the line `buf` is read: the state
afterwards and the line printed. -/
def action_clues_remove (g : Game) (buf : CStr) : Game × String :=
  ({ mansion_root := g.mansion_root, current_room := g.current_room,
     clues_bst := clue_delete g.clues_bst buf, clue2sus := g.clue2sus },
   "Remoção concluída (se existia).\n")

/-- The game state of `game_create` with the clue tree replaced. -/
def gameWithClues (t : ClueNode) : Game :=
  { mansion_root := game_create.mansion_root, current_room := game_create.current_room,
    clues_bst := t, clue2sus := game_create.clue2sus }

/-- A table of one bucket whose chain holds the key "a" in two spellings. -/
def tableTwoSpellings : HashMap :=
  HashMap.mk 1 [[MapKV.mk [97] [49], MapKV.mk [65] [50]]]

/-! ## The comparison `clue_cmp` -/

theorem tolower_eq_zero {c : Nat} : tolower c = 0 ↔ c = 0 := by
  unfold tolower
  by_cases h : 65 ≤ c ∧ c ≤ 90
  · rw [if_pos h]; constructor <;> intro h1 <;> omega
  · rw [if_neg h]

theorem tolower_zero : tolower 0 = 0 := by decide

/-- One round of the loop of `clue_cmp`, written with the two pointers only. -/
theorem clue_cmp_step (a b : CStr) :
    clue_cmp a b =
      if tolower (cur a) ≠ tolower (cur b) then (tolower (cur a) : Int) - (tolower (cur b) : Int)
      else if tolower (cur a) = 0 then 0 else clue_cmp (next a) (next b) := by
  cases a with
  | nil =>
    simp only [clue_cmp, cur, tolower_zero]
    split_ifs <;> rfl
  | cons x a => simp only [clue_cmp, cur, next]

theorem clue_cmp_self (a : CStr) : clue_cmp a a = 0 := by
  induction a with
  | nil => decide
  | cons x a ih =>
    rw [clue_cmp_step]
    simp only [cur, next, ne_eq, not_true_eq_false, if_false]
    split_ifs
    · rfl
    · exact ih

theorem clue_cmp_neg (a b : CStr) : clue_cmp b a = -clue_cmp a b := by
  induction a generalizing b with
  | nil =>
    rw [clue_cmp_step b [], clue_cmp_step [] b]
    simp only [cur, tolower_zero]
    split_ifs <;> omega
  | cons x a ih =>
    rw [clue_cmp_step b (x :: a), clue_cmp_step (x :: a) b]
    simp only [cur, next]
    split_ifs <;> first | omega | exact ih (next b)

/-- Texts that compare equal compare alike against every third text. -/
theorem clue_cmp_congr_left {a b : CStr} (h : clue_cmp a b = 0) (c : CStr) :
    clue_cmp a c = clue_cmp b c := by
  induction a generalizing b c with
  | nil =>
    rw [clue_cmp_step [] b] at h
    rw [clue_cmp_step [] c, clue_cmp_step b c]
    simp only [cur, tolower_zero] at h ⊢
    split_ifs at h ⊢ <;> omega
  | cons x a ih =>
    rw [clue_cmp_step (x :: a) b] at h
    rw [clue_cmp_step (x :: a) c, clue_cmp_step b c]
    simp only [cur, next] at h ⊢
    split_ifs at h ⊢ <;> first | omega | exact ih h (next c)

theorem clue_cmp_congr_right {b c : CStr} (h : clue_cmp b c = 0) (a : CStr) :
    clue_cmp a b = clue_cmp a c := by
  have h1 := clue_cmp_congr_left h a
  rw [clue_cmp_neg b a, clue_cmp_neg c a]
  omega

theorem clue_cmp_trans {a b c : CStr} (hab : clue_cmp a b < 0) (hbc : clue_cmp b c < 0) :
    clue_cmp a c < 0 := by
  induction a generalizing b c with
  | nil =>
    rw [clue_cmp_step [] b] at hab
    rw [clue_cmp_step b c] at hbc
    rw [clue_cmp_step [] c]
    simp only [cur, tolower_zero] at hab hbc ⊢
    split_ifs at hab hbc ⊢ <;> omega
  | cons x a ih =>
    rw [clue_cmp_step (x :: a) b] at hab
    rw [clue_cmp_step b c] at hbc
    rw [clue_cmp_step (x :: a) c]
    simp only [cur, next] at hab hbc ⊢
    split_ifs at hab hbc ⊢ <;> first | omega | exact ih hab hbc

theorem clue_cmp_symm_zero {a b : CStr} (h : clue_cmp a b = 0) : clue_cmp b a = 0 := by
  rw [clue_cmp_neg a b]; omega

theorem clue_cmp_gt_iff {a b : CStr} : clue_cmp a b > 0 ↔ clue_cmp b a < 0 := by
  rw [clue_cmp_neg a b]; omega

/-- The library comparison agrees with `clue_cmp`. -/
theorem strcasecmp_eq_clue_cmp (a b : CStr) : strcasecmp a b = clue_cmp a b := by
  induction a generalizing b with
  | nil =>
    simp only [strcasecmp, clue_cmp]
    split_ifs <;> omega
  | cons x a ih =>
    simp only [strcasecmp, clue_cmp]
    have hz := @tolower_eq_zero x
    split_ifs <;> first | omega | exact ih (next b)

/-! ## The clue tree -/

theorem mem_inorder_node {y k : CStr} {l r : ClueNode} :
    y ∈ clue_print_inorder (node k l r) ↔
      y ∈ clue_print_inorder l ∨ y = k ∨ y ∈ clue_print_inorder r := by
  simp [clue_print_inorder]

theorem BST_node {k : CStr} {l r : ClueNode} :
    BST (node k l r) ↔
      (∀ x ∈ clue_print_inorder l, clue_cmp x k < 0) ∧
      (∀ x ∈ clue_print_inorder r, clue_cmp x k > 0) ∧ BST l ∧ BST r := by
  simp only [BST]

theorem holds_left {k x : CStr} {l r : ClueNode} (hb : BST (node k l r))
    (hc : clue_cmp x k < 0) (h : Holds (node k l r) x) : Holds l x := by
  obtain ⟨y, hy, hxy⟩ := h
  rcases mem_inorder_node.1 hy with h1 | h1 | h1
  · exact ⟨y, h1, hxy⟩
  · subst h1; omega
  · have h2 := (BST_node.1 hb).2.1 y h1
    have h3 := clue_cmp_congr_left hxy k
    omega

theorem holds_right {k x : CStr} {l r : ClueNode} (hb : BST (node k l r))
    (hc : clue_cmp x k > 0) (h : Holds (node k l r) x) : Holds r x := by
  obtain ⟨y, hy, hxy⟩ := h
  rcases mem_inorder_node.1 hy with h1 | h1 | h1
  · have h2 := (BST_node.1 hb).1 y h1
    have h3 := clue_cmp_congr_left hxy k
    omega
  · subst h1; omega
  · exact ⟨y, h1, hxy⟩

theorem mem_inorder_insert {t : ClueNode} {x y : CStr}
    (h : y ∈ clue_print_inorder (clue_insert t x)) : y ∈ clue_print_inorder t ∨ y = x := by
  induction t with
  | null =>
    simp only [clue_insert, clue_create, clue_print_inorder, List.nil_append,
      List.mem_singleton] at h
    exact Or.inr h
  | node k l r ihl ihr =>
    simp only [clue_insert] at h
    split_ifs at h with h1 h2
    · rcases mem_inorder_node.1 h with h3 | h3 | h3
      · rcases ihl h3 with h4 | h4
        · exact Or.inl (mem_inorder_node.2 (Or.inl h4))
        · exact Or.inr h4
      · exact Or.inl (mem_inorder_node.2 (Or.inr (Or.inl h3)))
      · exact Or.inl (mem_inorder_node.2 (Or.inr (Or.inr h3)))
    · rcases mem_inorder_node.1 h with h3 | h3 | h3
      · exact Or.inl (mem_inorder_node.2 (Or.inl h3))
      · exact Or.inl (mem_inorder_node.2 (Or.inr (Or.inl h3)))
      · rcases ihr h3 with h4 | h4
        · exact Or.inl (mem_inorder_node.2 (Or.inr (Or.inr h4)))
        · exact Or.inr h4
    · exact Or.inl h

theorem BST_insert {t : ClueNode} (x : CStr) (hb : BST t) : BST (clue_insert t x) := by
  induction t with
  | null =>
    simp [clue_insert, clue_create, BST, clue_print_inorder]
  | node k l r ihl ihr =>
    obtain ⟨hl, hr, hbl, hbr⟩ := BST_node.1 hb
    simp only [clue_insert]
    split_ifs with h1 h2
    · refine BST_node.2 ⟨?_, hr, ihl hbl, hbr⟩
      intro y hy
      rcases mem_inorder_insert hy with h3 | h3
      · exact hl y h3
      · subst h3; exact h1
    · refine BST_node.2 ⟨hl, ?_, hbl, ihr hbr⟩
      intro y hy
      rcases mem_inorder_insert hy with h3 | h3
      · exact hr y h3
      · subst h3; exact h2
    · exact hb

theorem BST_insertAll {t : ClueNode} (xs : List CStr) (hb : BST t) : BST (insertAll t xs) := by
  induction xs generalizing t with
  | nil => exact hb
  | cons x xs ih => exact ih (BST_insert x hb)

theorem BST_inorder_sorted {t : ClueNode} (hb : BST t) :
    (clue_print_inorder t).Pairwise (fun a b => clue_cmp a b < 0) := by
  induction t with
  | null => simp [clue_print_inorder]
  | node k l r ihl ihr =>
    obtain ⟨hl, hr, hbl, hbr⟩ := BST_node.1 hb
    simp only [clue_print_inorder]
    rw [List.pairwise_append]
    refine ⟨ihl hbl, List.pairwise_cons.2 ⟨?_, ihr hbr⟩, ?_⟩
    · intro y hy
      exact clue_cmp_gt_iff.1 (hr y hy)
    · intro a ha b hb'
      rcases List.mem_cons.1 hb' with h1 | h1
      · subst h1; exact hl a ha
      · exact clue_cmp_trans (hl a ha) (clue_cmp_gt_iff.1 (hr b h1))

theorem clue_insert_present {t : ClueNode} {x : CStr} (hb : BST t) (h : Holds t x) :
    clue_insert t x = t := by
  induction t with
  | null =>
    obtain ⟨y, hy, _⟩ := h
    simp [clue_print_inorder] at hy
  | node k l r ihl ihr =>
    obtain ⟨_, _, hbl, hbr⟩ := BST_node.1 hb
    simp only [clue_insert]
    split_ifs with h1 h2
    · rw [ihl hbl (holds_left hb h1 h)]
    · rw [ihr hbr (holds_right hb h2 h)]
    · rfl

/-- On a non-empty tree `clue_min` reaches a node of the tree. -/
theorem clue_min_mem (k : CStr) (l r : ClueNode) :
    clueOf (clue_min (node k l r)) ∈ clue_print_inorder (node k l r) := by
  induction l generalizing k r with
  | null => simp [clue_min, clueOf, clue_print_inorder]
  | node lk ll lr ihl _ =>
    simp only [clue_min]
    exact mem_inorder_node.2 (Or.inl (ihl lk lr))

/-- On a non-empty tree `clue_min` does not return the null pointer. -/
theorem clue_min_ne_null (k : CStr) (l r : ClueNode) : clue_min (node k l r) ≠ null := by
  induction l generalizing k r with
  | null => simp [clue_min]
  | node lk ll lr ihl _ =>
    simp only [clue_min]
    exact ihl lk lr

/-- In an ordered tree no text compares below the text `clue_min` reaches. -/
theorem clue_min_le {t : ClueNode} (hb : BST t) :
    ∀ y ∈ clue_print_inorder t, clue_cmp (clueOf (clue_min t)) y ≤ 0 := by
  induction t with
  | null => intro y hy; simp [clue_print_inorder] at hy
  | node k l r ihl _ =>
    obtain ⟨hl, hr, hbl, hbr⟩ := BST_node.1 hb
    cases l with
    | null =>
      intro y hy
      simp only [clue_min, clueOf]
      rcases mem_inorder_node.1 hy with h1 | h1 | h1
      · simp [clue_print_inorder] at h1
      · subst h1; rw [clue_cmp_self]
      · exact le_of_lt (clue_cmp_gt_iff.1 (hr y h1))
    | node lk ll lr =>
      intro y hy
      simp only [clue_min]
      have hm : clue_cmp (clueOf (clue_min (node lk ll lr))) k < 0 :=
        hl _ (clue_min_mem lk ll lr)
      rcases mem_inorder_node.1 hy with h1 | h1 | h1
      · exact ihl hbl y h1
      · subst h1; exact le_of_lt hm
      · exact le_of_lt (clue_cmp_trans hm (clue_cmp_gt_iff.1 (hr y h1)))

/-- The body of `clue_delete` at a node. -/
theorem clue_delete_node (k x : CStr) (l r : ClueNode) :
    clue_delete (node k l r) x =
      if clue_cmp x k < 0 then node k (clue_delete l x) r
      else if clue_cmp x k > 0 then node k l (clue_delete r x)
      else
        match l, r with
        | null, r => r
        | node lk ll lr, null => node lk ll lr
        | node lk ll lr, node rk rl rr =>
          node (clueOf (clue_min (node rk rl rr))) (node lk ll lr)
            (clue_delete (node rk rl rr) (clueOf (clue_min (node rk rl rr)))) := by
  cases l <;> cases r <;> simp only [clue_delete]

theorem mem_inorder_delete {t : ClueNode} {x y : CStr}
    (h : y ∈ clue_print_inorder (clue_delete t x)) : y ∈ clue_print_inorder t := by
  induction t generalizing x with
  | null => simpa [clue_delete] using h
  | node k l r ihl ihr =>
    rw [clue_delete_node] at h
    split_ifs at h with h1 h2
    · rcases mem_inorder_node.1 h with h3 | h3 | h3
      · exact mem_inorder_node.2 (Or.inl (ihl h3))
      · exact mem_inorder_node.2 (Or.inr (Or.inl h3))
      · exact mem_inorder_node.2 (Or.inr (Or.inr h3))
    · rcases mem_inorder_node.1 h with h3 | h3 | h3
      · exact mem_inorder_node.2 (Or.inl h3)
      · exact mem_inorder_node.2 (Or.inr (Or.inl h3))
      · exact mem_inorder_node.2 (Or.inr (Or.inr (ihr h3)))
    · cases l with
      | null => exact mem_inorder_node.2 (Or.inr (Or.inr h))
      | node lk ll lr =>
        cases r with
        | null => exact mem_inorder_node.2 (Or.inl h)
        | node rk rl rr =>
          simp only at h
          rcases mem_inorder_node.1 h with h3 | h3 | h3
          · exact mem_inorder_node.2 (Or.inl h3)
          · subst h3
            exact mem_inorder_node.2 (Or.inr (Or.inr (clue_min_mem rk rl rr)))
          · exact mem_inorder_node.2 (Or.inr (Or.inr (ihr h3)))

/-- After `clue_delete` on an ordered tree no stored text compares equal to the deleted one. -/
theorem not_holds_delete {t : ClueNode} {x : CStr} (hb : BST t) :
    ¬ Holds (clue_delete t x) x := by
  induction t with
  | null =>
    rintro ⟨y, hy, _⟩
    simp [clue_delete, clue_print_inorder] at hy
  | node k l r ihl ihr =>
    obtain ⟨hl, hr, hbl, hbr⟩ := BST_node.1 hb
    rintro ⟨y, hy, hxy⟩
    rw [clue_delete_node] at hy
    split_ifs at hy with h1 h2
    · rcases mem_inorder_node.1 hy with h3 | h3 | h3
      · exact ihl hbl ⟨y, h3, hxy⟩
      · subst h3; omega
      · have h4 := clue_cmp_trans h1 (clue_cmp_gt_iff.1 (hr y h3))
        omega
    · rcases mem_inorder_node.1 hy with h3 | h3 | h3
      · have h4 := clue_cmp_trans (hl y h3) (clue_cmp_gt_iff.1 h2)
        rw [clue_cmp_neg x y] at h4
        omega
      · subst h3; omega
      · exact ihr hbr ⟨y, h3, hxy⟩
    · have hxk : clue_cmp x k = 0 := by omega
      have hgt : ∀ z ∈ clue_print_inorder r, clue_cmp x z ≠ 0 := by
        intro z hz h0
        have h4 := hr z hz
        have h5 := clue_cmp_congr_left (clue_cmp_symm_zero h0) k
        omega
      have hlt : ∀ z ∈ clue_print_inorder l, clue_cmp x z ≠ 0 := by
        intro z hz h0
        have h4 := hl z hz
        have h5 := clue_cmp_congr_left (clue_cmp_symm_zero h0) k
        omega
      cases l with
      | null => exact hgt y hy hxy
      | node lk ll lr =>
        cases r with
        | null => exact hlt y hy hxy
        | node rk rl rr =>
          simp only at hy
          rcases mem_inorder_node.1 hy with h3 | h3 | h3
          · exact hlt y h3 hxy
          · subst h3
            exact hgt _ (clue_min_mem rk rl rr) hxy
          · exact hgt y (mem_inorder_delete h3) hxy

theorem BST_delete {t : ClueNode} (x : CStr) (hb : BST t) : BST (clue_delete t x) := by
  induction t generalizing x with
  | null => simp [clue_delete, BST]
  | node k l r ihl ihr =>
    obtain ⟨hl, hr, hbl, hbr⟩ := BST_node.1 hb
    rw [clue_delete_node]
    split_ifs with h1 h2
    · exact BST_node.2 ⟨fun y hy => hl y (mem_inorder_delete hy), hr, ihl x hbl, hbr⟩
    · exact BST_node.2 ⟨hl, fun y hy => hr y (mem_inorder_delete hy), hbl, ihr x hbr⟩
    · cases l with
      | null => exact hbr
      | node lk ll lr =>
        cases r with
        | null => exact hbl
        | node rk rl rr =>
          simp only
          have hmk : clue_cmp (clueOf (clue_min (node rk rl rr))) k > 0 :=
            hr _ (clue_min_mem rk rl rr)
          refine BST_node.2 ⟨?_, ?_, hbl, ihr _ hbr⟩
          · intro y hy
            exact clue_cmp_trans (hl y hy) (clue_cmp_gt_iff.1 hmk)
          · intro y hy
            have h3 := clue_min_le hbr y (mem_inorder_delete hy)
            have h4 : clue_cmp (clueOf (clue_min (node rk rl rr))) y ≠ 0 :=
              fun h0 => not_holds_delete hbr ⟨y, hy, h0⟩
            rw [clue_cmp_neg _ y]
            omega

theorem nodeCount_delete {t : ClueNode} {x : CStr} (hb : BST t) (h : Holds t x) :
    nodeCount (clue_delete t x) + 1 = nodeCount t := by
  induction t generalizing x with
  | null =>
    obtain ⟨y, hy, _⟩ := h
    simp [clue_print_inorder] at hy
  | node k l r ihl ihr =>
    obtain ⟨_, _, hbl, hbr⟩ := BST_node.1 hb
    rw [clue_delete_node]
    split_ifs with h1 h2
    · have := ihl hbl (holds_left hb h1 h)
      simp only [nodeCount]; omega
    · have := ihr hbr (holds_right hb h2 h)
      simp only [nodeCount]; omega
    · cases l with
      | null => simp only [nodeCount]; omega
      | node lk ll lr =>
        cases r with
        | null => simp only [nodeCount]
        | node rk rl rr =>
          have := @ihr (clueOf (clue_min (node rk rl rr))) hbr
            ⟨_, clue_min_mem rk rl rr, clue_cmp_self _⟩
          simp only [nodeCount] at this ⊢; omega

theorem clue_search_zero_or_one (t : ClueNode) (x : CStr) :
    clue_search t x = 0 ∨ clue_search t x = 1 := by
  induction t with
  | null => exact Or.inl rfl
  | node k l r ihl ihr =>
    simp only [clue_search]
    split_ifs
    · exact Or.inr rfl
    · exact ihl
    · exact ihr

theorem clue_search_iff_holds {t : ClueNode} {x : CStr} (hb : BST t) :
    clue_search t x = 1 ↔ Holds t x := by
  induction t with
  | null =>
    simp only [clue_search]
    constructor
    · intro h; omega
    · rintro ⟨y, hy, _⟩
      simp [clue_print_inorder] at hy
  | node k l r ihl ihr =>
    obtain ⟨_, _, hbl, hbr⟩ := BST_node.1 hb
    simp only [clue_search]
    split_ifs with h1 h2
    · exact ⟨fun _ => ⟨k, mem_inorder_node.2 (Or.inr (Or.inl rfl)), h1⟩, fun _ => rfl⟩
    · rw [ihl hbl]
      exact ⟨fun ⟨y, hy, hxy⟩ => ⟨y, mem_inorder_node.2 (Or.inl hy), hxy⟩,
        fun h => holds_left hb h2 h⟩
    · rw [ihr hbr]
      exact ⟨fun ⟨y, hy, hxy⟩ => ⟨y, mem_inorder_node.2 (Or.inr (Or.inr hy)), hxy⟩,
        fun h => holds_right hb (by omega) h⟩

theorem clue_delete_not_held {t : ClueNode} {x : CStr} (h : ¬ Holds t x) :
    clue_delete t x = t := by
  induction t with
  | null => rfl
  | node k l r ihl ihr =>
    have hk : clue_cmp x k ≠ 0 :=
      fun h0 => h ⟨k, mem_inorder_node.2 (Or.inr (Or.inl rfl)), h0⟩
    have hl : ¬ Holds l x :=
      fun ⟨y, hy, hxy⟩ => h ⟨y, mem_inorder_node.2 (Or.inl hy), hxy⟩
    have hr : ¬ Holds r x :=
      fun ⟨y, hy, hxy⟩ => h ⟨y, mem_inorder_node.2 (Or.inr (Or.inr hy)), hxy⟩
    rw [clue_delete_node]
    split_ifs with h1 h2
    · rw [ihl hl]
    · rw [ihr hr]
    · omega

/-! ## The clue-to-suspect table -/

theorem strcasecmp_trans_zero {a b c : CStr} (hab : strcasecmp a b = 0)
    (hcb : strcasecmp c b = 0) : strcasecmp c a = 0 := by
  rw [strcasecmp_eq_clue_cmp] at hab hcb ⊢
  rw [clue_cmp_congr_right hab c]
  exact hcb

theorem get_scan_none_iff {chain : List MapKV} {key : CStr} :
    get_scan chain key = none ↔ ∀ p ∈ chain, strcasecmp p.key key ≠ 0 := by
  induction chain with
  | nil => simp [get_scan]
  | cons p rest ih =>
    simp only [get_scan, List.mem_cons, forall_eq_or_imp]
    split_ifs with h
    · simp [h]
    · rw [ih]
      exact ⟨fun h1 => ⟨h, h1⟩, fun h1 => h1.2⟩

theorem del_scan_none_iff {chain : List MapKV} {key : CStr} :
    del_scan chain key = none ↔ ∀ p ∈ chain, strcasecmp p.key key ≠ 0 := by
  induction chain with
  | nil => simp [del_scan]
  | cons p rest ih =>
    simp only [del_scan, List.mem_cons, forall_eq_or_imp]
    split_ifs with h
    · simp [h]
    · rw [Option.map_eq_none', ih]
      exact ⟨fun h1 => ⟨h, h1⟩, fun h1 => h1.2⟩

theorem put_scan_none_iff {chain : List MapKV} {key value : CStr} :
    put_scan chain key value = none ↔ ∀ p ∈ chain, strcasecmp p.key key ≠ 0 := by
  induction chain with
  | nil => simp [put_scan]
  | cons p rest ih =>
    simp only [put_scan, List.mem_cons, forall_eq_or_imp]
    split_ifs with h
    · simp [h]
    · rw [Option.map_eq_none', ih]
      exact ⟨fun h1 => ⟨h, h1⟩, fun h1 => h1.2⟩

theorem del_scan_sublist {chain chain' : List MapKV} {key : CStr}
    (h : del_scan chain key = some chain') : chain'.Sublist chain := by
  induction chain generalizing chain' with
  | nil => simp [del_scan] at h
  | cons p rest ih =>
    simp only [del_scan] at h
    split_ifs at h with h1
    · cases h
      exact List.sublist_cons_self p rest
    · obtain ⟨c, hc, rfl⟩ := Option.map_eq_some'.1 h
      exact (ih hc).cons₂ p

theorem put_scan_keys {chain chain' : List MapKV} {key value : CStr}
    (h : put_scan chain key value = some chain') :
    chain'.map MapKV.key = chain.map MapKV.key := by
  induction chain generalizing chain' with
  | nil => simp [put_scan] at h
  | cons p rest ih =>
    simp only [put_scan] at h
    split_ifs at h with h1
    · cases h; rfl
    · obtain ⟨c, hc, rfl⟩ := Option.map_eq_some'.1 h
      simp only [List.map_cons, ih hc]

/-- The chains keep distinct keys: stated on the list of keys. -/
theorem pairwise_keys_iff {chain : List MapKV} :
    chain.Pairwise (fun p q => strcasecmp q.key p.key ≠ 0) ↔
      (chain.map MapKV.key).Pairwise (fun a b => strcasecmp b a ≠ 0) := by
  rw [List.pairwise_map]

theorem del_then_get_chain {chain chain' : List MapKV} {key : CStr}
    (hd : chain.Pairwise (fun p q => strcasecmp q.key p.key ≠ 0))
    (h : del_scan chain key = some chain') : get_scan chain' key = none := by
  induction chain generalizing chain' with
  | nil => simp [del_scan] at h
  | cons p rest ih =>
    obtain ⟨hp, hrest⟩ := List.pairwise_cons.1 hd
    simp only [del_scan] at h
    split_ifs at h with h1
    · cases h
      rw [get_scan_none_iff]
      intro q hq h0
      exact hp q hq (strcasecmp_trans_zero h1 h0)
    · obtain ⟨c, hc, rfl⟩ := Option.map_eq_some'.1 h
      simp only [get_scan, if_neg h1]
      exact ih hrest hc

theorem chainAt_mem (m : HashMap) (h : Nat) : chainAt m h ∈ m.table ∨ chainAt m h = [] := by
  unfold chainAt
  rw [List.getD_eq_getElem?_getD]
  cases hx : m.table[h]? with
  | none => exact Or.inr rfl
  | some c => exact Or.inl (List.getElem?_mem hx)

theorem chainAt_distinct {m : HashMap} (hm : ChainsDistinct m) (h : Nat) :
    (chainAt m h).Pairwise (fun p q => strcasecmp q.key p.key ≠ 0) := by
  rcases chainAt_mem m h with h1 | h1
  · exact hm _ h1
  · rw [h1]; exact List.Pairwise.nil

theorem chainAt_set (buckets : Nat) (table : List (List MapKV)) (h : Nat)
    (chain : List MapKV) :
    chainAt { buckets := buckets, table := table.set h chain } h = chain ∨
      chainAt { buckets := buckets, table := table.set h chain } h = [] := by
  unfold chainAt
  simp only [List.getD_eq_getElem?_getD, List.getElem?_set, if_true]
  split_ifs
  · exact Or.inl rfl
  · exact Or.inr rfl

theorem ChainsDistinct_set {m : HashMap} (hm : ChainsDistinct m) (h : Nat)
    {chain : List MapKV} (hc : chain.Pairwise (fun p q => strcasecmp q.key p.key ≠ 0)) :
    ChainsDistinct { buckets := m.buckets, table := m.table.set h chain } := by
  intro c hcm
  rcases List.mem_or_eq_of_mem_set hcm with h1 | h1
  · exact hm c h1
  · rw [h1]; exact hc

theorem ChainsDistinct_create (n : Nat) : ChainsDistinct (hashmap_create n) := by
  intro c hc
  simp only [hashmap_create] at hc
  rw [List.eq_of_mem_replicate hc]
  exact List.Pairwise.nil

theorem ChainsDistinct_put {m : HashMap} (hm : ChainsDistinct m) (key value : CStr) :
    ChainsDistinct (hashmap_put m key value) := by
  unfold hashmap_put
  simp only
  cases hs : put_scan (chainAt m (djb2 key % m.buckets)) key value with
  | none =>
    simp only
    apply ChainsDistinct_set hm
    exact List.pairwise_cons.2 ⟨put_scan_none_iff.1 hs, chainAt_distinct hm _⟩
  | some chain =>
    simp only
    apply ChainsDistinct_set hm
    rw [pairwise_keys_iff, put_scan_keys hs, ← pairwise_keys_iff]
    exact chainAt_distinct hm _

theorem ChainsDistinct_del {m : HashMap} (hm : ChainsDistinct m) (key : CStr) :
    ChainsDistinct (hashmap_del m key).1 := by
  unfold hashmap_del
  simp only
  cases hs : del_scan (chainAt m (djb2 key % m.buckets)) key with
  | none => exact hm
  | some chain =>
    simp only
    apply ChainsDistinct_set hm
    exact (chainAt_distinct hm _).sublist (del_scan_sublist hs)

theorem ChainsDistinct_runOps {m : HashMap} (hm : ChainsDistinct m) (ops : List TableOp) :
    ChainsDistinct (runOps m ops) := by
  induction ops generalizing m with
  | nil => exact hm
  | cons op ops ih =>
    apply ih
    cases op with
    | put key value => exact ChainsDistinct_put hm key value
    | del key => exact ChainsDistinct_del hm key

theorem hashmap_del_then_get {m : HashMap} (hm : ChainsDistinct m) (key : CStr) :
    hashmap_get (hashmap_del m key).1 key = none := by
  unfold hashmap_del
  simp only
  cases hs : del_scan (chainAt m (djb2 key % m.buckets)) key with
  | none =>
    simp only [hashmap_get]
    rw [get_scan_none_iff]
    exact del_scan_none_iff.1 hs
  | some chain =>
    simp only [hashmap_get]
    rcases chainAt_set m.buckets m.table (djb2 key % m.buckets) chain with h1 | h1
    · rw [h1]; exact del_then_get_chain (chainAt_distinct hm _) hs
    · rw [h1]; rfl

/-! ## The comparison as a lexicographic order on lowercased copies -/

theorem IsCStr_cons {x : Nat} {s : CStr} :
    IsCStr (x :: s) ↔ (0 < x ∧ x < 256) ∧ IsCStr s := by
  simp [IsCStr]

theorem tolower_pos {c : Nat} (h : 0 < c) : 0 < tolower c := by
  have := @tolower_eq_zero c
  omega

theorem strtolower_cons {x : Nat} (s : CStr) (hx : 0 < x) :
    strtolower_inplace (x :: s) = tolower x :: strtolower_inplace s := by
  simp only [strtolower_inplace]
  rw [if_neg (by omega)]

theorem lex_cons_cons_iff {x y : Nat} {l₁ l₂ : List Nat} :
    List.Lex (· < ·) (x :: l₁) (y :: l₂) ↔ x < y ∨ (x = y ∧ List.Lex (· < ·) l₁ l₂) := by
  constructor
  · intro h
    cases h with
    | cons h1 => exact Or.inr ⟨rfl, h1⟩
    | rel h1 => exact Or.inl h1
  · rintro (h | ⟨rfl, h⟩)
    · exact List.Lex.rel h
    · exact List.Lex.cons h

theorem clue_cmp_lt_iff_lex {a b : CStr} (ha : IsCStr a) (hb : IsCStr b) :
    clue_cmp a b < 0 ↔
      List.Lex (· < ·) (strtolower_inplace a) (strtolower_inplace b) := by
  induction a generalizing b with
  | nil =>
    cases b with
    | nil =>
      simp only [strtolower_inplace]
      constructor
      · intro h; revert h; decide
      · intro h; cases h
    | cons y b =>
      obtain ⟨hy, _⟩ := IsCStr_cons.1 hb
      rw [strtolower_cons b hy.1, clue_cmp_step]
      simp only [cur, tolower_zero, strtolower_inplace]
      have := tolower_pos hy.1
      constructor
      · intro _; exact List.Lex.nil
      · intro _; split_ifs <;> omega
  | cons x a ih =>
    obtain ⟨hx, ha'⟩ := IsCStr_cons.1 ha
    have hxp := tolower_pos hx.1
    cases b with
    | nil =>
      rw [strtolower_cons a hx.1, clue_cmp_step]
      simp only [cur, tolower_zero, strtolower_inplace]
      constructor
      · intro h; split_ifs at h <;> omega
      · intro h; cases h
    | cons y b =>
      obtain ⟨hy, hb'⟩ := IsCStr_cons.1 hb
      rw [strtolower_cons a hx.1, strtolower_cons b hy.1, clue_cmp_step, lex_cons_cons_iff]
      simp only [cur, next]
      split_ifs with h1 h2
      · constructor
        · intro h; exact Or.inl (by omega)
        · rintro (h | ⟨h, _⟩) <;> omega
      · omega
      · rw [ih ha' hb']
        simp only [ne_eq, not_not] at h1
        constructor
        · intro h; exact Or.inr ⟨h1, h⟩
        · rintro (h | ⟨_, h⟩)
          · omega
          · exact h

theorem clue_cmp_eq_zero_iff_lower {a b : CStr} (ha : IsCStr a) (hb : IsCStr b) :
    clue_cmp a b = 0 ↔ strtolower_inplace a = strtolower_inplace b := by
  induction a generalizing b with
  | nil =>
    cases b with
    | nil => simp [strtolower_inplace, clue_cmp_self]
    | cons y b =>
      obtain ⟨hy, _⟩ := IsCStr_cons.1 hb
      rw [strtolower_cons b hy.1, clue_cmp_step]
      simp only [cur, tolower_zero, strtolower_inplace]
      have := tolower_pos hy.1
      constructor
      · intro h; split_ifs at h <;> omega
      · intro h; cases h
  | cons x a ih =>
    obtain ⟨hx, ha'⟩ := IsCStr_cons.1 ha
    have hxp := tolower_pos hx.1
    cases b with
    | nil =>
      rw [strtolower_cons a hx.1, clue_cmp_step]
      simp only [cur, tolower_zero, strtolower_inplace]
      constructor
      · intro h; split_ifs at h <;> omega
      · intro h; cases h
    | cons y b =>
      obtain ⟨hy, hb'⟩ := IsCStr_cons.1 hb
      rw [strtolower_cons a hx.1, strtolower_cons b hy.1, clue_cmp_step]
      simp only [cur, next, List.cons.injEq]
      split_ifs with h1 h2
      · constructor
        · intro h; omega
        · rintro ⟨h, _⟩; exact absurd h h1
      · omega
      · rw [ih ha' hb']
        simp only [ne_eq, not_not] at h1
        exact ⟨fun h => ⟨h1, h⟩, fun h => h.2⟩

/-- A non-zero result is the difference of the lowercased bytes at the first position
where the lowercased copies differ. -/
theorem clue_cmp_first_difference {a b : CStr} (ha : IsCStr a) (hb : IsCStr b)
    (hne : clue_cmp a b ≠ 0) :
    ∃ i, (∀ j < i, byteAt (strtolower_inplace a) j = byteAt (strtolower_inplace b) j) ∧
      byteAt (strtolower_inplace a) i ≠ byteAt (strtolower_inplace b) i ∧
      clue_cmp a b =
        (byteAt (strtolower_inplace a) i : Int) - (byteAt (strtolower_inplace b) i : Int) := by
  induction a generalizing b with
  | nil =>
    cases b with
    | nil => exact absurd (clue_cmp_self []) hne
    | cons y b =>
      obtain ⟨hy, _⟩ := IsCStr_cons.1 hb
      have := tolower_pos hy.1
      refine ⟨0, fun j hj => absurd hj (Nat.not_lt_zero j), ?_, ?_⟩
      · rw [strtolower_cons b hy.1]
        simp only [byteAt, strtolower_inplace, List.getD_nil, List.getD_cons_zero]
        omega
      · rw [strtolower_cons b hy.1, clue_cmp_step]
        simp only [byteAt, strtolower_inplace, List.getD_nil, List.getD_cons_zero, cur,
          tolower_zero]
        split_ifs <;> omega
  | cons x a ih =>
    obtain ⟨hx, ha'⟩ := IsCStr_cons.1 ha
    have hxp := tolower_pos hx.1
    cases b with
    | nil =>
      refine ⟨0, fun j hj => absurd hj (Nat.not_lt_zero j), ?_, ?_⟩
      · rw [strtolower_cons a hx.1]
        simp only [byteAt, strtolower_inplace, List.getD_nil, List.getD_cons_zero]
        omega
      · rw [strtolower_cons a hx.1, clue_cmp_step]
        simp only [byteAt, strtolower_inplace, List.getD_nil, List.getD_cons_zero, cur,
          tolower_zero]
        split_ifs <;> omega
    | cons y b =>
      obtain ⟨hy, hb'⟩ := IsCStr_cons.1 hb
      rw [clue_cmp_step] at hne ⊢
      simp only [cur, next] at hne ⊢
      rw [strtolower_cons a hx.1, strtolower_cons b hy.1]
      by_cases h1 : tolower x = tolower y
      · rw [if_neg (by simpa using h1), if_neg (by omega)] at hne ⊢
        obtain ⟨i, hi1, hi2, hi3⟩ := ih ha' hb' hne
        refine ⟨i + 1, ?_, ?_, ?_⟩
        · intro j hj
          cases j with
          | zero => simpa [byteAt] using h1
          | succ j =>
            have := hi1 j (by omega)
            simpa [byteAt] using this
        · simpa [byteAt] using hi2
        · simpa [byteAt] using hi3
      · rw [if_pos h1]
        refine ⟨0, fun j hj => absurd hj (Nat.not_lt_zero j), ?_, ?_⟩
        · simpa [byteAt] using h1
        · simp [byteAt]

/-! ## Deleting the successor -/

/-- On an ordered tree, deleting by value the text `clue_min` reaches unlinks the
leftmost node. -/
theorem clue_delete_min_eq_removeLeftmost {t : ClueNode} (hb : BST t) :
    clue_delete t (clueOf (clue_min t)) = removeLeftmost t := by
  induction t with
  | null => rfl
  | node k l r ihl _ =>
    obtain ⟨hl, _, hbl, _⟩ := BST_node.1 hb
    cases l with
    | null =>
      rw [clue_delete_node]
      simp only [clue_min, clueOf, removeLeftmost, clue_cmp_self]
      rfl
    | node lk ll lr =>
      have hm : clue_cmp (clueOf (clue_min (node lk ll lr))) k < 0 :=
        hl _ (clue_min_mem lk ll lr)
      rw [clue_delete_node]
      simp only [clue_min, removeLeftmost]
      rw [if_pos hm, ihl hbl]

/-! ## Buckets, enumeration and lookups after a put -/

theorem strcasecmp_self (a : CStr) : strcasecmp a a = 0 := by
  rw [strcasecmp_eq_clue_cmp, clue_cmp_self]

theorem strcasecmp_ne_of_left {p k q : CStr} (hpk : strcasecmp p k = 0)
    (hqk : strcasecmp q k ≠ 0) : strcasecmp p q ≠ 0 := by
  rw [strcasecmp_eq_clue_cmp] at hpk hqk ⊢
  intro hpq
  apply hqk
  rw [← clue_cmp_congr_left hpq k]
  exact hpk

theorem chainAt_set_eq (b b' : Nat) (table : List (List MapKV)) (h i : Nat)
    (chain : List MapKV) :
    chainAt { buckets := b, table := table.set h chain } i =
      if h = i ∧ h < table.length then chain
      else chainAt { buckets := b', table := table } i := by
  unfold chainAt
  simp only [List.getD_eq_getElem?_getD, List.getElem?_set]
  by_cases h1 : h = i
  · subst h1
    by_cases h2 : h < table.length
    · simp [h2]
    · simp [h2, List.getElem?_eq_none (Nat.le_of_not_lt h2)]
  · simp [h1]

theorem get_scan_put_scan_same {chain chain' : List MapKV} {key value : CStr}
    (h : put_scan chain key value = some chain') : get_scan chain' key = some value := by
  induction chain generalizing chain' with
  | nil => simp [put_scan] at h
  | cons p rest ih =>
    simp only [put_scan] at h
    split_ifs at h with h1
    · cases h
      simp only [get_scan, if_pos h1]
    · obtain ⟨c, hc, rfl⟩ := Option.map_eq_some'.1 h
      simp only [get_scan, if_neg h1]
      exact ih hc

theorem get_scan_put_scan_other {chain chain' : List MapKV} {key value q : CStr}
    (h : put_scan chain key value = some chain') (hq : strcasecmp q key ≠ 0) :
    get_scan chain' q = get_scan chain q := by
  induction chain generalizing chain' with
  | nil => simp [put_scan] at h
  | cons p rest ih =>
    simp only [put_scan] at h
    split_ifs at h with h1
    · cases h
      have h2 := strcasecmp_ne_of_left h1 hq
      simp only [get_scan, if_neg h2]
    · obtain ⟨c, hc, rfl⟩ := Option.map_eq_some'.1 h
      simp only [get_scan, ih hc]

theorem hashmap_get_put_same {m : HashMap} (hm : TableOk m) (k v : CStr) :
    hashmap_get (hashmap_put m k v) k = some v := by
  have hlt : djb2 k % m.buckets < m.table.length := by
    rw [hm.2]; exact Nat.mod_lt _ hm.1
  unfold hashmap_put
  simp only
  cases hs : put_scan (chainAt m (djb2 k % m.buckets)) k v with
  | none =>
    simp only [hashmap_get]
    rw [chainAt_set_eq m.buckets m.buckets, if_pos ⟨rfl, hlt⟩]
    simp only [get_scan, if_pos (strcasecmp_self k)]
  | some chain =>
    simp only [hashmap_get]
    rw [chainAt_set_eq m.buckets m.buckets, if_pos ⟨rfl, hlt⟩]
    exact get_scan_put_scan_same hs

theorem hashmap_get_put_other (m : HashMap) {k q : CStr} (v : CStr)
    (hq : strcasecmp q k ≠ 0) :
    hashmap_get (hashmap_put m k v) q = hashmap_get m q := by
  have hkq : strcasecmp k q ≠ 0 := by
    rw [strcasecmp_eq_clue_cmp] at hq ⊢
    intro h0
    exact hq (clue_cmp_symm_zero h0)
  unfold hashmap_put
  simp only
  cases hs : put_scan (chainAt m (djb2 k % m.buckets)) k v with
  | none =>
    simp only [hashmap_get]
    rw [chainAt_set_eq m.buckets m.buckets]
    split_ifs with h1
    · rw [← h1.1]
      simp only [get_scan, if_neg hkq]
    · rfl
  | some chain =>
    simp only [hashmap_get]
    rw [chainAt_set_eq m.buckets m.buckets]
    split_ifs with h1
    · rw [← h1.1]
      exact get_scan_put_scan_other hs hq
    · rfl

theorem TableOk_create (n : Nat) : TableOk (hashmap_create n) := by
  simp only [TableOk, hashmap_create, List.length_replicate, and_true]
  split_ifs <;> omega

theorem TableOk_put {m : HashMap} (hm : TableOk m) (key value : CStr) :
    TableOk (hashmap_put m key value) := by
  unfold hashmap_put
  simp only
  cases put_scan (chainAt m (djb2 key % m.buckets)) key value <;>
    simpa [TableOk] using hm

theorem TableOk_del {m : HashMap} (hm : TableOk m) (key : CStr) :
    TableOk (hashmap_del m key).1 := by
  unfold hashmap_del
  simp only
  cases del_scan (chainAt m (djb2 key % m.buckets)) key <;>
    simpa [TableOk] using hm

theorem TableOk_runOps {m : HashMap} (hm : TableOk m) (ops : List TableOp) :
    TableOk (runOps m ops) := by
  induction ops generalizing m with
  | nil => exact hm
  | cons op ops ih =>
    apply ih
    cases op with
    | put key value => exact TableOk_put hm key value
    | del key => exact TableOk_del hm key

theorem map_getD_range (l : List (List MapKV)) :
    (List.range l.length).map (fun i => l.getD i []) = l := by
  induction l with
  | nil => rfl
  | cons c l ih =>
    rw [List.length_cons, List.range_succ_eq_map, List.map_cons, List.map_map]
    simp only [List.getD_cons_zero, List.cons.injEq, true_and]
    exact ih

/-- The enumeration of a well laid out table is its chains one after another. -/
theorem hashmap_print_eq_flatten {m : HashMap} (hm : TableOk m) :
    hashmap_print m = m.table.flatten := by
  unfold hashmap_print chainAt
  rw [List.flatMap_def, ← hm.2, map_getD_range]

theorem chainAt_subset_print {m : HashMap} {h : Nat} (hh : h < m.buckets) :
    ∀ p ∈ chainAt m h, p ∈ hashmap_print m := by
  intro p hp
  unfold hashmap_print
  exact List.mem_flatMap.2 ⟨h, List.mem_range.2 hh, hp⟩

theorem djb2_step_eq (h c : Nat) :
    (((h <<< 5) % 2 ^ 64 + h) % 2 ^ 64 + c) % 2 ^ 64 = djb2_step h c := by
  unfold djb2_step
  rw [Nat.shiftLeft_eq]
  norm_num
  omega

theorem djb2_loop_eq_foldl {s : CStr} (hs : IsCStr s) (h : Nat) :
    djb2_loop s h = s.foldl djb2_step h := by
  induction s generalizing h with
  | nil => rfl
  | cons c s ih =>
    obtain ⟨hc, hs'⟩ := IsCStr_cons.1 hs
    simp only [djb2_loop, List.foldl_cons]
    rw [if_neg (by omega), djb2_step_eq, ih hs']

theorem put_scan_absent_twice {chain : List MapKV} {k1 v1 k2 v2 : CStr}
    (h2 : ∀ p ∈ chain, strcasecmp p.key k2 ≠ 0) (h12 : strcasecmp k1 k2 ≠ 0) :
    put_scan ({ key := k1, value := v1 } :: chain) k2 v2 = none := by
  rw [put_scan_none_iff]
  intro p hp
  rcases List.mem_cons.1 hp with h | h
  · rw [h]; exact h12
  · exact h2 p h

theorem hashmap_put_of_none {m : HashMap} {key value : CStr}
    (hs : put_scan (chainAt m (djb2 key % m.buckets)) key value = none) :
    hashmap_put m key value =
      { buckets := m.buckets,
        table := m.table.set (djb2 key % m.buckets)
          ({ key := key, value := value } :: chainAt m (djb2 key % m.buckets)) } := by
  unfold hashmap_put
  simp only
  rw [hs]

/-! ## The claims -/

/-- C1: for every finite sequence of texts inserted one after another with `clue_insert`,
starting from the empty tree, the listing `clue_print_inorder` prints is strictly
increasing under `clue_cmp`: each text compares below every later one, so no two listed
texts compare equal in either direction. -/
theorem clue_insert_inorder_strictly_increasing (xs : List CStr) :
    (clue_print_inorder (insertAll null xs)).Pairwise (fun a b => clue_cmp a b < 0) ∧
    (clue_print_inorder (insertAll null xs)).Pairwise
      (fun a b => clue_cmp a b ≠ 0 ∧ clue_cmp b a ≠ 0) := by
  have hs := BST_inorder_sorted (BST_insertAll xs (show BST null from trivial))
  refine ⟨hs, hs.imp ?_⟩
  intro a b hab
  have := clue_cmp_neg a b
  constructor <;> omega

/-- C2: on a tree that satisfies the ordering invariant, inserting a text that compares
equal to a stored text returns the very same tree (same shape, same node count, same
stored spellings); and inserting "Knife", "rope", "KNIFE" in this order gives a tree of
2 nodes whose in-order listing is "Knife", "rope". -/
theorem clue_insert_duplicate_unchanged :
    (∀ (t : ClueNode) (x : CStr), BST t → Holds t x →
      clue_insert t x = t ∧ nodeCount (clue_insert t x) = nodeCount t ∧
        clue_print_inorder (clue_insert t x) = clue_print_inorder t) ∧
    nodeCount (insertAll null [txtKnife, txtRope, txtKNIFE]) = 2 ∧
    clue_print_inorder (insertAll null [txtKnife, txtRope, txtKNIFE]) = [txtKnife, txtRope] := by
  refine ⟨?_, by decide, by decide⟩
  intro t x hb h
  rw [clue_insert_present hb h]
  exact ⟨rfl, rfl, rfl⟩

/-- The duplicate "KNIFE" leaves the tree built from "Knife" and "rope" as it is. -/
theorem clue_insert_duplicate_unchanged_witness :
    BST (insertAll null [txtKnife, txtRope]) ∧
    Holds (insertAll null [txtKnife, txtRope]) txtKNIFE ∧
    clue_insert (insertAll null [txtKnife, txtRope]) txtKNIFE =
      insertAll null [txtKnife, txtRope] :=
  ⟨by decide, by decide,
    (clue_insert_duplicate_unchanged.1 (insertAll null [txtKnife, txtRope]) txtKNIFE
      (by decide) (by decide)).1⟩

/-- C3: on a tree that satisfies the ordering invariant, deleting a text that
`clue_search` finds gives a tree with exactly one node fewer, in which `clue_search` for
that text returns 0. -/
theorem clue_delete_present_removes_one (t : ClueNode) (x : CStr) (hb : BST t)
    (hs : clue_search t x = 1) :
    nodeCount (clue_delete t x) + 1 = nodeCount t ∧ clue_search (clue_delete t x) x = 0 := by
  have hh : Holds t x := (clue_search_iff_holds hb).1 hs
  refine ⟨nodeCount_delete hb hh, ?_⟩
  rcases clue_search_zero_or_one (clue_delete t x) x with h0 | h1
  · exact h0
  · exact absurd ((clue_search_iff_holds (BST_delete x hb)).1 h1) (not_holds_delete hb)

/-- Deleting "KNIFE" from the tree of "Knife", "a", "rope", whose root has two children. -/
theorem clue_delete_present_removes_one_witness :
    BST (insertAll null [txtKnife, [97], txtRope]) ∧
    clue_search (insertAll null [txtKnife, [97], txtRope]) txtKNIFE = 1 ∧
    nodeCount (clue_delete (insertAll null [txtKnife, [97], txtRope]) txtKNIFE) + 1 =
      nodeCount (insertAll null [txtKnife, [97], txtRope]) ∧
    clue_search (clue_delete (insertAll null [txtKnife, [97], txtRope]) txtKNIFE) txtKNIFE = 0 :=
  ⟨by decide, by decide,
    clue_delete_present_removes_one (insertAll null [txtKnife, [97], txtRope]) txtKNIFE
      (by decide) (by decide)⟩

/-- C4: deleting a text that compares equal to no stored text returns the very same tree
(same shape, same texts, same node count); this holds for every tree, in particular for
those that satisfy the ordering invariant. -/
theorem clue_delete_absent_unchanged (t : ClueNode) (x : CStr) (h : ¬ Holds t x) :
    clue_delete t x = t ∧ nodeCount (clue_delete t x) = nodeCount t := by
  rw [clue_delete_not_held h]
  exact ⟨rfl, rfl⟩

/-- Deleting "a" from the tree of "Knife" and "rope" changes nothing. -/
theorem clue_delete_absent_unchanged_witness :
    ¬ Holds (insertAll null [txtKnife, txtRope]) [97] ∧
    clue_delete (insertAll null [txtKnife, txtRope]) [97] =
      insertAll null [txtKnife, txtRope] :=
  ⟨by decide,
    (clue_delete_absent_unchanged (insertAll null [txtKnife, txtRope]) [97] (by decide)).1⟩

/-- C5: at the empty table of 101 buckets, after `hashmap_put` with key "Candlestick" the
call `hashmap_get` with the key "candlestick", which `strcasecmp` reports equal, returns
NULL: the two spellings select the buckets 100 and 9. -/
theorem hashmap_get_other_case_misses :
    strcasecmp keyCandlestickLower keyCandlestick = 0 ∧
    djb2 keyCandlestick % 101 = 100 ∧ djb2 keyCandlestickLower % 101 = 9 ∧
    hashmap_get (hashmap_put (hashmap_create 101) keyCandlestick valMustard)
      keyCandlestickLower = none := by
  decide

/-- C6: at the empty table of 101 buckets, `hashmap_put` of "Candlestick" and then of
"candlestick" leaves two entries in the enumeration, the first call's value still
present, and `hashmap_get` with "CANDLESTICK" returns NULL. -/
theorem hashmap_put_other_case_duplicates :
    strcasecmp keyCandlestick keyCandlestickLower = 0 ∧
    hashmap_print (hashmap_put (hashmap_put (hashmap_create 101) keyCandlestick valMustard)
        keyCandlestickLower valPlum) =
      [{ key := keyCandlestickLower, value := valPlum },
       { key := keyCandlestick, value := valMustard }] ∧
    hashmap_get (hashmap_put (hashmap_put (hashmap_create 101) keyCandlestick valMustard)
        keyCandlestickLower valPlum) keyCandlestickUpper = none := by
  decide

/-- C7: the table reached from the empty table of 101 buckets by `hashmap_put` of "rope"
and then of "ROPE" holds two entries whose keys `strcasecmp` reports equal. -/
theorem hashmap_reachable_duplicate_keys :
    hashmap_print (runOps (hashmap_create 101)
        [TableOp.put txtRope valMustard, TableOp.put [82, 79, 80, 69] valPlum]) =
      [{ key := txtRope, value := valMustard }, { key := [82, 79, 80, 69], value := valPlum }] ∧
    strcasecmp txtRope [82, 79, 80, 69] = 0 := by
  decide

/-- C8: in every table reached from a freshly created table by calls of `hashmap_put` and
`hashmap_del`, `hashmap_get` for a key right after `hashmap_del` of that key returns
NULL. -/
theorem hashmap_get_after_del_absent (n : Nat) (ops : List TableOp) (k : CStr) :
    hashmap_get (hashmap_del (runOps (hashmap_create n) ops) k).1 k = none :=
  hashmap_del_then_get (ChainsDistinct_runOps (ChainsDistinct_create n) ops) k

/-- C9: when `hashmap_get` returns NULL for a key, `hashmap_del` of that key returns 0
and leaves the table as it is, every chain included. -/
theorem hashmap_del_absent_unchanged (m : HashMap) (k : CStr)
    (h : hashmap_get m k = none) : hashmap_del m k = (m, 0) := by
  unfold hashmap_get at h
  unfold hashmap_del
  simp only
  rw [del_scan_none_iff.2 (get_scan_none_iff.1 h)]

/-- Deleting "rope" from the table that only links "Candlestick". -/
theorem hashmap_del_absent_unchanged_witness :
    hashmap_get (hashmap_put (hashmap_create 101) keyCandlestick valMustard) txtRope = none ∧
    hashmap_del (hashmap_put (hashmap_create 101) keyCandlestick valMustard) txtRope =
      (hashmap_put (hashmap_create 101) keyCandlestick valMustard, 0) :=
  ⟨by decide,
    hashmap_del_absent_unchanged (hashmap_put (hashmap_create 101) keyCandlestick valMustard)
      txtRope (by decide)⟩

/-- C10: on a tree that satisfies the ordering invariant, the tree `clue_delete` returns
satisfies it again, for every text, also when the deleted node has two children. -/
theorem clue_delete_preserves_BST (t : ClueNode) (x : CStr) (hb : BST t) :
    BST (clue_delete t x) :=
  BST_delete x hb

/-- Deleting the root, which has two children, of the tree of "Knife", "a", "rope". -/
theorem clue_delete_preserves_BST_witness :
    BST (insertAll null [txtKnife, [97], txtRope]) ∧
    clue_delete (insertAll null [txtKnife, [97], txtRope]) txtKnife =
      node txtRope (node [97] null null) null ∧
    BST (clue_delete (insertAll null [txtKnife, [97], txtRope]) txtKnife) :=
  ⟨by decide, by decide,
    clue_delete_preserves_BST (insertAll null [txtKnife, [97], txtRope]) txtKnife (by decide)⟩

/-- C11: for every game state and every command line, `action_show_map` leaves the
mansion tree as it is; on `L` or `l` with a left child the current room becomes that
child, on `R` or `r` with a right child it becomes that child; when the child is missing,
or the line starts with any other character, the state is unchanged. -/
theorem action_show_map_navigation (g : Game) (op : CStr) :
    (action_show_map g op).1.mansion_root = g.mansion_root ∧
    ((cur op = 76 ∨ cur op = 108) → roomLeft g.current_room ≠ RoomNode.null →
      (action_show_map g op).1.current_room = roomLeft g.current_room) ∧
    ((cur op = 82 ∨ cur op = 114) → roomRight g.current_room ≠ RoomNode.null →
      (action_show_map g op).1.current_room = roomRight g.current_room) ∧
    ((cur op = 76 ∨ cur op = 108) → roomLeft g.current_room = RoomNode.null →
      (action_show_map g op).1 = g) ∧
    ((cur op = 82 ∨ cur op = 114) → roomRight g.current_room = RoomNode.null →
      (action_show_map g op).1 = g) ∧
    (¬ (cur op = 76 ∨ cur op = 108) → ¬ (cur op = 82 ∨ cur op = 114) →
      (action_show_map g op).1 = g) := by
  have h82 : (cur op = 82 ∨ cur op = 114) → ¬ (cur op = 76 ∨ cur op = 108) := by omega
  refine ⟨?_, ?_, ?_, ?_, ?_, ?_⟩
  · unfold action_show_map
    split_ifs <;> rfl
  · intro hL hl
    unfold action_show_map
    rw [if_pos hL, if_pos hl]
  · intro hR hr
    unfold action_show_map
    rw [if_neg (h82 hR), if_pos hR, if_pos hr]
  · intro hL hl
    unfold action_show_map
    rw [if_pos hL, if_neg (not_not.2 hl)]
  · intro hR hr
    unfold action_show_map
    rw [if_neg (h82 hR), if_pos hR, if_neg (not_not.2 hr)]
  · intro hL hR
    unfold action_show_map
    rw [if_neg hL, if_neg hR]

/-- From the hall the line "L" leads to room 2. -/
theorem action_show_map_navigation_witness :
    (action_show_map game_create [76]).1.current_room = roomLeft game_create.current_room ∧
    roomId (action_show_map game_create [76]).1.current_room = 2 :=
  ⟨(action_show_map_navigation game_create [76]).2.1 (by decide) (by decide), by decide⟩

/-- C12: in the state `game_create` produces the mansion has 7 rooms, root id 1 with
children 2 and 3 and leaf grandchildren 4, 5 and 6, 7; the current room is the root;
after two steps to the left the current room is the room created with id 4. -/
theorem game_create_left_left :
    game_create.current_room = game_create.mansion_root ∧
    roomId game_create.current_room = 1 ∧
    game_create.mansion_root =
      RoomNode.node 1 nameHall
        (RoomNode.node 2 nameSala (room_create 4 nameCozinha) (room_create 5 nameJantar))
        (RoomNode.node 3 nameBiblioteca (room_create 6 nameEscritorio)
          (room_create 7 nameConservatorio)) ∧
    room_print_inorder game_create.mansion_root = [4, 2, 5, 1, 6, 3, 7] ∧
    (action_show_map (action_show_map game_create [76]).1 [76]).1.current_room =
      room_create 4 nameCozinha ∧
    roomId (action_show_map (action_show_map game_create [76]).1 [76]).1.current_room = 4 := by
  decide

/-- C13, as stated, fails: removing the absent "Knife" from the tree of "rope" and
removing the stored "Knife" from the tree of "Knife" and "rope" hand the caller the same
tree and print the same line. -/
theorem clue_remove_same_result_absent_present :
    BST (insertAll null [txtRope]) ∧ ¬ Holds (insertAll null [txtRope]) txtKnife ∧
    BST (insertAll null [txtKnife, txtRope]) ∧
    Holds (insertAll null [txtKnife, txtRope]) txtKnife ∧
    clue_delete (insertAll null [txtRope]) txtKnife =
      clue_delete (insertAll null [txtKnife, txtRope]) txtKnife ∧
    (action_clues_remove (gameWithClues (insertAll null [txtRope])) txtKnife) =
      (action_clues_remove (gameWithClues (insertAll null [txtKnife, txtRope])) txtKnife) := by
  decide

/-- C13, amended: removal gives no signal of its own. The handler stores the tree
`clue_delete` returns, changes nothing else and prints the same line whether or not the
text was stored; on a tree that satisfies the ordering invariant the returned tree equals
the tree passed in exactly when the text was absent. -/
theorem clue_remove_reports_nothing (g : Game) (buf : CStr) :
    (action_clues_remove g buf).2 = "Remoção concluída (se existia).\n" ∧
    (action_clues_remove g buf).1.clues_bst = clue_delete g.clues_bst buf ∧
    (action_clues_remove g buf).1.mansion_root = g.mansion_root ∧
    (action_clues_remove g buf).1.current_room = g.current_room ∧
    (action_clues_remove g buf).1.clue2sus = g.clue2sus ∧
    (BST g.clues_bst → (clue_delete g.clues_bst buf = g.clues_bst ↔ ¬ Holds g.clues_bst buf)) := by
  refine ⟨rfl, rfl, rfl, rfl, rfl, ?_⟩
  intro hb
  constructor
  · intro he hh
    have := nodeCount_delete hb hh
    rw [he] at this
    omega
  · intro hh
    exact clue_delete_not_held hh

/-- Removing "KNIFE" from the tree of "Knife" and "rope" changes the tree. -/
theorem clue_remove_reports_nothing_witness :
    BST (gameWithClues (insertAll null [txtKnife, txtRope])).clues_bst ∧
    (clue_delete (gameWithClues (insertAll null [txtKnife, txtRope])).clues_bst txtKNIFE =
        (gameWithClues (insertAll null [txtKnife, txtRope])).clues_bst ↔
      ¬ Holds (gameWithClues (insertAll null [txtKnife, txtRope])).clues_bst txtKNIFE) :=
  ⟨by decide,
    (clue_remove_reports_nothing (gameWithClues (insertAll null [txtKnife, txtRope]))
      txtKNIFE).2.2.2.2.2 (by decide)⟩

/-- C14: for well-formed strings the sign of `clue_cmp` is the sign of the lexicographic
comparison of the lowercased copies, a proper prefix coming first; the result is 0
exactly when the lowercased copies are equal, and a non-zero result is the difference of
the lowercased bytes at the first position where the copies differ. -/
theorem clue_cmp_lowercase_lexicographic (a b : CStr) (ha : IsCStr a) (hb : IsCStr b) :
    (clue_cmp a b < 0 ↔
      List.Lex (· < ·) (strtolower_inplace a) (strtolower_inplace b)) ∧
    (clue_cmp a b = 0 ↔ strtolower_inplace a = strtolower_inplace b) ∧
    (clue_cmp a b > 0 ↔
      List.Lex (· < ·) (strtolower_inplace b) (strtolower_inplace a)) ∧
    (clue_cmp a b ≠ 0 →
      ∃ i, (∀ j < i, byteAt (strtolower_inplace a) j = byteAt (strtolower_inplace b) j) ∧
        byteAt (strtolower_inplace a) i ≠ byteAt (strtolower_inplace b) i ∧
        clue_cmp a b =
          (byteAt (strtolower_inplace a) i : Int) - (byteAt (strtolower_inplace b) i : Int)) := by
  refine ⟨clue_cmp_lt_iff_lex ha hb, clue_cmp_eq_zero_iff_lower ha hb, ?_,
    clue_cmp_first_difference ha hb⟩
  rw [clue_cmp_gt_iff]
  exact clue_cmp_lt_iff_lex hb ha

/-- The texts "Knife" and "KNIFE" have equal lowercased copies and compare equal. -/
theorem clue_cmp_lowercase_lexicographic_witness :
    IsCStr txtKnife ∧ IsCStr txtKNIFE ∧
    (clue_cmp txtKnife txtKNIFE = 0 ↔
      strtolower_inplace txtKnife = strtolower_inplace txtKNIFE) :=
  ⟨by decide, by decide,
    (clue_cmp_lowercase_lexicographic txtKnife txtKNIFE (by decide) (by decide)).2.1⟩

/-- C15: on a tree that satisfies the ordering invariant `clue_search` returns 1 exactly
when some node stores a text that compares equal to the one looked for, and 0 otherwise. -/
theorem clue_search_finds_exactly_stored (t : ClueNode) (x : CStr) (hb : BST t) :
    (clue_search t x = 1 ↔ Holds t x) ∧ (clue_search t x = 0 ↔ ¬ Holds t x) := by
  have h1 := @clue_search_iff_holds t x hb
  refine ⟨h1, ?_⟩
  rcases clue_search_zero_or_one t x with h0 | h0
  · rw [← h1, h0]; decide
  · rw [← h1, h0]; decide

/-- The search for "ROPE" in the tree of "Knife", "a", "rope" reaches the right child. -/
theorem clue_search_finds_exactly_stored_witness :
    BST (insertAll null [txtKnife, [97], txtRope]) ∧
    (clue_search (insertAll null [txtKnife, [97], txtRope]) [82, 79, 80, 69] = 1 ↔
      Holds (insertAll null [txtKnife, [97], txtRope]) [82, 79, 80, 69]) :=
  ⟨by decide,
    (clue_search_finds_exactly_stored (insertAll null [txtKnife, [97], txtRope])
      [82, 79, 80, 69] (by decide)).1⟩

/-- C16: on a clue tree whose root text compares equal to the deleted text and whose root
has a left and a right child, `clue_delete` returns the root with the text of the leftmost
node of the right subtree, the left subtree as it was, and the right subtree with that
leftmost node unlinked, its right child in its place. Of the ordering invariant of the
clue tree only the part on the right subtree is used. -/
theorem clue_delete_two_children (k x lk rk : CStr) (ll lr rl rr : ClueNode)
    (hbr : BST (node rk rl rr)) (hx : clue_cmp x k = 0) :
    clue_delete (node k (node lk ll lr) (node rk rl rr)) x =
      node (clueOf (clue_min (node rk rl rr))) (node lk ll lr)
        (removeLeftmost (node rk rl rr)) := by
  rw [clue_delete_node, if_neg (by omega), if_neg (by omega)]
  simp only
  rw [clue_delete_min_eq_removeLeftmost hbr]

/-- Deleting "KNIFE" at the root of the tree built from "Knife", "a", "rope", "Lamp":
"Lamp", the leftmost text of the right subtree, moves to the root and its node goes. -/
theorem clue_delete_two_children_witness :
    insertAll null [txtKnife, [97], txtRope, [76, 97, 109, 112]] =
      node txtKnife (node [97] null null)
        (node txtRope (node [76, 97, 109, 112] null null) null) ∧
    BST (node txtRope (node [76, 97, 109, 112] null null) null) ∧
    clue_cmp txtKNIFE txtKnife = 0 ∧
    clue_delete (node txtKnife (node [97] null null)
        (node txtRope (node [76, 97, 109, 112] null null) null)) txtKNIFE =
      node [76, 97, 109, 112] (node [97] null null) (node txtRope null null) :=
  ⟨by decide, by decide, by decide,
    clue_delete_two_children txtKnife txtKNIFE [97] txtRope null null
      (node [76, 97, 109, 112] null null) null (by decide) (by decide)⟩

/-- C17: the enumeration is the concatenation of the chains of the buckets 0, 1, ...,
buckets-1 in that order, each chain from head to tail; and when two keys that do not
compare equal, are absent from the table and select the same bucket are put one after
the other, the entry of the second key is listed immediately before the entry of the
first, at the head of that bucket's chain. -/
theorem hashmap_print_bucket_order :
    (∀ m : HashMap,
      hashmap_print m = ((List.range m.buckets).map (fun i => chainAt m i)).flatten) ∧
    (∀ m : HashMap, TableOk m → hashmap_print m = m.table.flatten) ∧
    (∀ (m : HashMap) (k1 v1 k2 v2 : CStr), TableOk m →
      strcasecmp k1 k2 ≠ 0 →
      (∀ p ∈ hashmap_print m, strcasecmp p.key k1 ≠ 0) →
      (∀ p ∈ hashmap_print m, strcasecmp p.key k2 ≠ 0) →
      djb2 k1 % m.buckets = djb2 k2 % m.buckets →
      hashmap_print (hashmap_put (hashmap_put m k1 v1) k2 v2) =
        (m.table.take (djb2 k1 % m.buckets)).flatten ++
          { key := k2, value := v2 } :: { key := k1, value := v1 } ::
            (chainAt m (djb2 k1 % m.buckets) ++
              (m.table.drop (djb2 k1 % m.buckets + 1)).flatten)) := by
  refine ⟨fun m => ?_, fun m hm => hashmap_print_eq_flatten hm, ?_⟩
  · unfold hashmap_print
    rw [List.flatMap_def]
  · intro m k1 v1 k2 v2 hm h12 ha1 ha2 hsame
    have hlt : djb2 k1 % m.buckets < m.buckets := Nat.mod_lt _ hm.1
    have hlen : djb2 k1 % m.buckets < m.table.length := by rw [hm.2]; exact hlt
    have hs1 : put_scan (chainAt m (djb2 k1 % m.buckets)) k1 v1 = none :=
      put_scan_none_iff.2 (fun p hp => ha1 p (chainAt_subset_print hlt p hp))
    have hp1 := hashmap_put_of_none hs1
    have hc1 : chainAt (hashmap_put m k1 v1) (djb2 k1 % m.buckets) =
        { key := k1, value := v1 } :: chainAt m (djb2 k1 % m.buckets) := by
      rw [hp1, chainAt_set_eq m.buckets m.buckets, if_pos ⟨rfl, hlen⟩]
    have hb1 : (hashmap_put m k1 v1).buckets = m.buckets := by rw [hp1]
    have hs2 : put_scan (chainAt (hashmap_put m k1 v1) (djb2 k1 % m.buckets)) k2 v2 = none := by
      rw [hc1]
      exact put_scan_absent_twice
        (fun p hp => ha2 p (chainAt_subset_print hlt p hp)) h12
    have hs2' : put_scan (chainAt (hashmap_put m k1 v1)
        (djb2 k2 % (hashmap_put m k1 v1).buckets)) k2 v2 = none := by
      rw [hb1, ← hsame]; exact hs2
    have hp2 := hashmap_put_of_none hs2'
    rw [hb1, ← hsame, hc1] at hp2
    have ht1 : (hashmap_put m k1 v1).table =
        m.table.set (djb2 k1 % m.buckets)
          ({ key := k1, value := v1 } :: chainAt m (djb2 k1 % m.buckets)) := by rw [hp1]
    rw [ht1, List.set_set] at hp2
    have hok : TableOk (hashmap_put (hashmap_put m k1 v1) k2 v2) :=
      TableOk_put (TableOk_put hm k1 v1) k2 v2
    rw [hashmap_print_eq_flatten hok, hp2]
    simp only
    rw [List.set_eq_take_append_cons_drop, if_pos hlen, List.flatten_append,
      List.flatten_cons]
    simp only [List.cons_append, List.append_assoc]

/-- On the empty table of one bucket "rope" and then "Knife" are listed "Knife", "rope". -/
theorem hashmap_print_bucket_order_witness :
    TableOk (hashmap_create 1) ∧ strcasecmp txtRope txtKnife ≠ 0 ∧
    hashmap_print (hashmap_put (hashmap_put (hashmap_create 1) txtRope valMustard)
        txtKnife valPlum) =
      [{ key := txtKnife, value := valPlum }, { key := txtRope, value := valMustard }] :=
  ⟨by decide, by decide,
    hashmap_print_bucket_order.2.2 (hashmap_create 1) txtRope valMustard txtKnife valPlum
      (by decide) (by decide) (by decide) (by decide) (by decide)⟩

/-- C18: on a well-formed string `djb2` is the left fold of the step
`h -> (h * 33 + byte) mod 2^64` from 5381 over the bytes as they are, not lowercased; the
shift form equals `h * 33` modulo `2^64`; `hashmap_get` reads, and `hashmap_put` and
`hashmap_del` touch, only the chain of the bucket `djb2(key) mod buckets`; and in every
table reached from a freshly created one that index is below the bucket count, inside
the array of chains. -/
theorem djb2_fold_and_bucket_index :
    (∀ s : CStr, IsCStr s → djb2 s = djb2_fold s) ∧
    (∀ h : Nat, ((h <<< 5) % 2 ^ 64 + h) % 2 ^ 64 = (h * 33) % 2 ^ 64) ∧
    (∀ (m : HashMap) (key value : CStr),
      hashmap_get m key = get_scan (chainAt m (djb2 key % m.buckets)) key ∧
      ∀ i, i ≠ djb2 key % m.buckets →
        chainAt (hashmap_put m key value) i = chainAt m i ∧
        chainAt (hashmap_del m key).1 i = chainAt m i) ∧
    (∀ (n : Nat) (ops : List TableOp) (key : CStr),
      djb2 key % (runOps (hashmap_create n) ops).buckets <
          (runOps (hashmap_create n) ops).buckets ∧
      djb2 key % (runOps (hashmap_create n) ops).buckets <
          (runOps (hashmap_create n) ops).table.length) := by
  refine ⟨fun s hs => djb2_loop_eq_foldl hs 5381, ?_, ?_, ?_⟩
  · intro h
    have := djb2_step_eq h 0
    unfold djb2_step at this
    simpa using this
  · intro m key value
    refine ⟨rfl, fun i hi => ⟨?_, ?_⟩⟩
    · unfold hashmap_put
      simp only
      cases put_scan (chainAt m (djb2 key % m.buckets)) key value with
      | none =>
        simp only
        rw [chainAt_set_eq m.buckets m.buckets, if_neg (fun h => hi h.1.symm)]
      | some chain =>
        simp only
        rw [chainAt_set_eq m.buckets m.buckets, if_neg (fun h => hi h.1.symm)]
    · unfold hashmap_del
      simp only
      cases del_scan (chainAt m (djb2 key % m.buckets)) key with
      | none => rfl
      | some chain =>
        simp only
        rw [chainAt_set_eq m.buckets m.buckets, if_neg (fun h => hi h.1.symm)]
  · intro n ops key
    have hok := TableOk_runOps (TableOk_create n) ops
    have hlt := Nat.mod_lt (djb2 key) hok.1
    exact ⟨hlt, by rw [hok.2]; exact hlt⟩

/-- The hash of "Knife" computed by the loop and by the fold. -/
theorem djb2_fold_and_bucket_index_witness :
    IsCStr txtKnife ∧ djb2 txtKnife = djb2_fold txtKnife ∧ djb2 txtKnife = 210680564690 :=
  ⟨by decide, djb2_fold_and_bucket_index.1 txtKnife (by decide), by decide⟩

/-- C19: on every table with its array of chains in place, whatever the chains hold,
`hashmap_get` with the very key of the `hashmap_put` just made returns the value put. -/
theorem hashmap_get_after_put_same_key (m : HashMap) (k v : CStr) (hm : TableOk m) :
    hashmap_get (hashmap_put m k v) k = some v :=
  hashmap_get_put_same hm k v

/-- A chain that holds "a" twice, in two spellings, which no sequence of calls builds. -/
theorem hashmap_get_after_put_same_key_witness :
    TableOk tableTwoSpellings ∧
    hashmap_get (hashmap_put tableTwoSpellings [65] valPlum) [65] = some valPlum :=
  ⟨by decide, hashmap_get_after_put_same_key tableTwoSpellings [65] valPlum (by decide)⟩

/-- C20: for every table, `hashmap_put` of a key leaves what `hashmap_get` returns for
every key that does not compare equal to it as it was, also within one bucket. -/
theorem hashmap_put_frames_other_keys (m : HashMap) (k v q : CStr)
    (hq : strcasecmp q k ≠ 0) :
    hashmap_get (hashmap_put m k v) q = hashmap_get m q :=
  hashmap_get_put_other m v hq

/-- In a table of one bucket, putting "Knife" leaves the value of "rope" in place. -/
theorem hashmap_put_frames_other_keys_witness :
    strcasecmp txtRope txtKnife ≠ 0 ∧
    hashmap_get (hashmap_put (hashmap_put (hashmap_create 1) txtRope valMustard)
      txtKnife valPlum) txtRope = some valMustard :=
  ⟨by decide,
    hashmap_put_frames_other_keys (hashmap_put (hashmap_create 1) txtRope valMustard)
      txtKnife valPlum txtRope (by decide)⟩

end DetectiveQuest
